import Mathlib

/-!
Verification of the peer Identify protocol and observed-address manager of
ipfs/go-libp2p, as a shallow embedding of the sources in
`src/p2p/protocol/identify/` (the legacy `id.go` and the current service in
the second half of `obsaddr_test.go`).  Components whose code is not in the
sources (the `ObservedAddrManager` itself, the peer store, the crypto
collaborators) are modelled from the spec, as marked on each definition.
-/

namespace Libp2pIdentify

/-! ## Multiaddresses

The source treats multiaddresses as opaque byte strings with a component
structure (`ma.Multiaddr`, a depended-on collaborator).  We model the three
shapes the claims need: an IPv4 address with a transport port, an IPv6
address with a transport port, and a non-IP address given by raw bytes.
`encodeAddr`/`decodeAddr` model `addr.Bytes()` and `ma.NewMultiaddrBytes`:
an injective serialization with a partial inverse (so that malformed byte
strings fail to decode, as in `consumeMessage`).  The byte-level layout of
the collaborator codec is not load-bearing for any claim; only injectivity,
partiality of parsing and the component structure are. -/

inductive Addr where
  | ip4 (a b c d : Nat) (port : Nat)
  | ip6 (bytes : List Nat) (port : Nat)
  | other (bytes : List Nat)
deriving DecidableEq, Repr

def encodeAddr : Addr → List Nat
  | .ip4 a b c d port => [4, a, b, c, d, port]
  | .ip6 bytes port => 41 :: port :: bytes
  | .other bytes => 0 :: bytes

def decodeAddr : List Nat → Option Addr
  | 4 :: a :: b :: c :: d :: port :: [] => some (.ip4 a b c d port)
  | 41 :: port :: bytes => some (.ip6 bytes port)
  | 0 :: bytes => some (.other bytes)
  | _ => none

/-- Model of `manet.IsIPLoopback`: whether the first component of the
multiaddr is an IP in the loopback range (IPv4 `127.0.0.0/8`, IPv6 `::1`). -/
def isIPLoopback : Addr → Bool
  | .ip4 a _ _ _ _ => a == 127
  | .ip6 bytes _ => bytes == [0, 0, 0, 0, 0, 0, 0, 0, 0, 0, 0, 0, 0, 0, 0, 1]
  | .other _ => false

/-! ## Observer groups

`obsaddr.go` is not among the sources; only its test `TestObsAddrSet` is.
The grouping function below is modelled from that test's expectations
(`src/p2p/protocol/identify/obsaddr_test.go`, lines 139–169): observations
by `/ip4/1.2.3.4/tcp/1234` and `/ip4/1.2.3.4/tcp/1235` fall in one group
("different observer, but same observer group"), while `/ip4/1.2.3.6..8`
must each count as fresh groups for `a1` to activate.  The group is
therefore the observer's first multiaddr component (the bare IP, transport
and port stripped), not a masked network. -/

abbrev GroupKey := List Nat

def observerGroup : Addr → GroupKey
  | .ip4 a b c d _ => [4, a, b, c, d]
  | .ip6 bytes _ => 41 :: bytes
  | .other bytes => 0 :: bytes

/-- Modelled from the spec: "The observer is used to compute an observer
group, which for IP-bearing addresses is the masked network (IPv4: /16;
IPv6: /32) of the observer's IP, and for non-IP addresses the full address
bytes."  This definition follows the spec's words, for comparison with
`observerGroup` (which the in-source test forces). -/
def maskedObserverGroup : Addr → GroupKey
  | .ip4 a b _ _ _ => [4, a, b]
  | .ip6 bytes _ => 41 :: bytes.take 4
  | .other bytes => 0 :: bytes

/-! ## Observed-address manager

Modelled from the spec: `obsaddr.go` is not among the sources.  Per spec
§3/§4.1, an entry is keyed by (observed address, direction) and holds each
supporting observer group's most recent last-seen time plus the local
addresses it was observed for; an observation upserts its group's last-seen;
`Addrs()` reports an address iff some entry for it has at least
`ActivationThresh = 4` distinct groups whose last-seen is within the TTL. -/

inductive Direction where
  | inbound
  | outbound
deriving DecidableEq, Repr

structure Observation where
  observed : Addr
  localAddr : Addr
  observer : Addr
  dir : Direction
  time : Nat
deriving DecidableEq, Repr

structure ObsEntry where
  addr : Addr
  dir : Direction
  seenBy : List (GroupKey × Nat)
  locals : List Addr
deriving DecidableEq, Repr

structure ObsState where
  entries : List ObsEntry
  ttl : Nat
deriving DecidableEq, Repr

def activationThresh : Nat := 4

/-- Upsert one observer group's last-seen time in an entry's `seenBy` map
(modelled as an association list in insertion order). -/
def upsertSeen (seen : List (GroupKey × Nat)) (g : GroupKey) (t : Nat) :
    List (GroupKey × Nat) :=
  if seen.any fun p => decide (p.1 = g) then
    seen.map fun p => if p.1 = g then (g, t) else p
  else
    seen ++ [(g, t)]

def insertIfNew (locals : List Addr) (a : Addr) : List Addr :=
  if locals.any fun b => decide (b = a) then locals else locals ++ [a]

/-- Worker-side handling of one observation (spec §4.1 worker event 1): look
up or create the entry keyed by (observed, direction), upsert the observer
group's last-seen to the observation's time, and record the local address. -/
def record (st : ObsState) (o : Observation) : ObsState :=
  if st.entries.any fun e => decide (e.addr = o.observed ∧ e.dir = o.dir) then
    { st with
      entries := st.entries.map fun e =>
        if e.addr = o.observed ∧ e.dir = o.dir then
          { e with
            seenBy := upsertSeen e.seenBy (observerGroup o.observer) o.time
            locals := insertIfNew e.locals o.localAddr }
        else e }
  else
    { st with
      entries := st.entries ++
        [⟨o.observed, o.dir, [(observerGroup o.observer, o.time)], [o.localAddr]⟩] }

/-- Whether a last-seen time `t` is within the TTL window at time `now`. -/
def inWindow (now ttl t : Nat) : Bool := now - t ≤ ttl

/-- The observer groups of an entry whose last-seen is within the TTL. -/
def groupsInWindow (seen : List (GroupKey × Nat)) (now ttl : Nat) :
    List GroupKey :=
  (seen.filter fun p => inWindow now ttl p.2).map Prod.fst

/-- Activation rule (spec §4.1): for the entry's direction and address,
count the distinct observer groups whose last-seen is within the TTL. -/
def entryActivated (now ttl : Nat) (e : ObsEntry) : Bool :=
  activationThresh ≤ (groupsInWindow e.seenBy now ttl).dedup.length

/-- `Addrs()`: the deduplicated observed addresses of currently activated
entries, both directions contributing. -/
def Addrs (st : ObsState) (now : Nat) : List Addr :=
  (((st.entries.filter fun e => entryActivated now st.ttl e).map
    fun e => e.addr).dedup)

/-- Replay a list of observations through the worker from the empty state. -/
def replay (ttl : Nat) (obs : List Observation) : ObsState :=
  obs.foldl record ⟨[], ttl⟩

/-- The `seenBy` map of the entry keyed (A, d), or `[]` when none exists. -/
def seenOf (entries : List ObsEntry) (A : Addr) (d : Direction) :
    List (GroupKey × Nat) :=
  match entries with
  | [] => []
  | e :: es => if e.addr = A ∧ e.dir = d then e.seenBy else seenOf es A d

/-- The observer groups that reported address `A` with direction `d` within
the TTL window, read off the observation history (deduplicate to count). -/
def reportedGroups (obs : List Observation) (A : Addr) (d : Direction)
    (now ttl : Nat) : List GroupKey :=
  ((obs.filter fun o =>
      decide (o.observed = A ∧ o.dir = d) && inWindow now ttl o.time).map
    fun o => observerGroup o.observer)

/-- The observer groups that reported address `A` within the TTL window
regardless of direction: the count in claim C2, stated in the spec's words
("at least 4 distinct observer groups have reported A within the current
TTL window"). -/
def reportedGroupsAnyDir (obs : List Observation) (A : Addr)
    (now ttl : Nat) : List GroupKey :=
  ((obs.filter fun o =>
      decide (o.observed = A) && inWindow now ttl o.time).map
    fun o => observerGroup o.observer)

/-! ### The observation trace of `TestObsAddrSet`

Concrete values from `TestObsAddrSet` (`obsaddr_test.go`, lines 109–169):
the observed addresses `a1..a3`, the observers `a4`, `a5` (one IP, two
ports) and `b1..b3` (distinct IPs in the same /16 and even the same /24),
and the host's listen address.  `testObs` replays the test's observation
sequence up to the point where the test asserts `Addrs() == [a1]`. -/

def tA1 : Addr := .ip4 1 2 3 4 1231
def tA2 : Addr := .ip4 1 2 3 4 1232
def tA3 : Addr := .ip4 1 2 3 4 1233
def tA4 : Addr := .ip4 1 2 3 4 1234
def tA5 : Addr := .ip4 1 2 3 4 1235
def tB1 : Addr := .ip4 1 2 3 6 1236
def tB2 : Addr := .ip4 1 2 3 7 1237
def tB3 : Addr := .ip4 1 2 3 8 1237
def tLo : Addr := .ip4 127 0 0 1 10086

def testObs : List Observation :=
  [⟨tA1, tLo, tA4, .outbound, 0⟩, ⟨tA2, tLo, tA4, .outbound, 1⟩,
   ⟨tA3, tLo, tA4, .outbound, 2⟩, ⟨tA1, tLo, tA4, .outbound, 3⟩,
   ⟨tA2, tLo, tA4, .outbound, 4⟩, ⟨tA3, tLo, tA4, .outbound, 5⟩,
   ⟨tA1, tLo, tA5, .outbound, 6⟩, ⟨tA2, tLo, tA5, .outbound, 7⟩,
   ⟨tA3, tLo, tA5, .outbound, 8⟩, ⟨tA1, tLo, tB1, .outbound, 9⟩,
   ⟨tA1, tLo, tB2, .outbound, 10⟩, ⟨tA1, tLo, tB3, .outbound, 11⟩]

/-! ## Connection-identification registry (`IdentifyWait`)

A trace model of the registry in the current `id.go` (`conns` map guarded by
`connsMu`, lines 539–570 of the concatenated source file): states record the
`conns` map, the set of running identification routines, and the signals
closed so far.  Each step is one mutex-protected section run atomically:
`IdentifyWait` (its read-locked fast path and its double-checked
write-locked slow path return the same result, so one atomic step is
faithful), `removeConn` (the `Disconnected` notifiee, or the stream-open
failure path of `identifyConn`), and the end of an `identifyConn` routine
(its deferred `close(signal)`).  Connections and signals are numbered. -/

structure RegState where
  conns : List (Nat × Nat)
  live : List (Nat × Nat)
  closed : List Nat
  nextSig : Nat
deriving DecidableEq, Repr

def lookupSig (conns : List (Nat × Nat)) (c : Nat) : Option Nat :=
  match conns with
  | [] => none
  | p :: ps => if p.1 = c then some p.2 else lookupSig ps c

/-- `IdentifyWait(c)`: return the registered signal when one exists;
otherwise register a fresh signal and spawn an identification routine. -/
def identifyWaitStep (st : RegState) (c : Nat) : RegState × Nat :=
  match lookupSig st.conns c with
  | some s => (st, s)
  | none =>
    (⟨(c, st.nextSig) :: st.conns, (c, st.nextSig) :: st.live, st.closed,
      st.nextSig + 1⟩, st.nextSig)

/-- `removeConn(c)`: delete the registry entry (disconnect processing). -/
def removeConnStep (st : RegState) (c : Nat) : RegState :=
  { st with conns := st.conns.filter fun p => decide (p.1 ≠ c) }

/-- The end of routine `(c, s)`: it leaves the set of running routines and
its deferred `close(signal)` fires. -/
def finishStep (st : RegState) (c s : Nat) : RegState :=
  if st.live.any fun p => decide (p = (c, s)) then
    { st with
      live := st.live.filter fun p => decide (p ≠ (c, s))
      closed := s :: st.closed }
  else st

inductive RegStep where
  | wait (c : Nat)
  | disconnect (c : Nat)
  | finish (c s : Nat)
deriving DecidableEq, Repr

def regStep (st : RegState) : RegStep → RegState
  | .wait c => (identifyWaitStep st c).1
  | .disconnect c => removeConnStep st c
  | .finish c s => finishStep st c s

def runReg (steps : List RegStep) : RegState :=
  steps.foldl regStep ⟨[], [], [], 0⟩

/-! ## Delimited reading (`handleIdentifyResponse`) and `identifyConn`

`handleIdentifyResponse` reads one delimited Identify message through
`ggio.NewDelimitedReader(s, 2048)` and on failure warns and resets the
stream.  The delimited wire format (a collaborator, fixed by the spec's §6:
length-prefixed varint framing, "Max message size 2048 bytes") is embedded
byte-exactly: an unsigned base-128 varint length, then that many payload
bytes; a length over the cap fails the read. -/

def idMaxMessageSize : Nat := 2048

def encodeUvarint (n : Nat) : List Nat :=
  if h : n < 128 then [n]
  else (n % 128 + 128) :: encodeUvarint (n / 128)
termination_by n
decreasing_by
  exact Nat.div_lt_self (by omega) (by omega)

def decodeUvarint : List Nat → Option (Nat × List Nat)
  | [] => none
  | b :: rest =>
    if b < 128 then some (b, rest)
    else
      match decodeUvarint rest with
      | none => none
      | some (n, r) => some (b - 128 + 128 * n, r)

/-- One `ReadMsg` of a delimited reader with maximum message size
`maxSize`: decode the varint length, fail when it exceeds the cap or the
stream is short, else return the payload and the unread remainder. -/
def readDelimited (maxSize : Nat) (wire : List Nat) :
    Option (List Nat × List Nat) :=
  match decodeUvarint wire with
  | none => none
  | some (len, rest) =>
    if maxSize < len then none
    else if rest.length < len then none
    else some (rest.take len, rest.drop len)

structure HandleResult where
  reads : Nat
  streamReset : Bool
  warned : Bool
  consumed : Option (List Nat)
deriving DecidableEq, Repr

/-- `handleIdentifyResponse`: one delimited read with the 2048-byte cap;
on error warn and reset, otherwise hand the message to `consumeMessage`. -/
def handleIdentifyResponse (wire : List Nat) : HandleResult :=
  match readDelimited idMaxMessageSize wire with
  | none => ⟨1, true, true, none⟩
  | some (msg, _) => ⟨1, false, false, some msg⟩

/-- Modelled from the spec: the push and delta stream handlers are not among
the sources; per spec §4.3 "Streams on the push/delta protocols use the same
consume path as the initial response", with the same delimited reader and
2048-byte cap (§6). -/
def pushDeltaHandler (wire : List Nat) : HandleResult :=
  handleIdentifyResponse wire

inductive IdEvent where
  | completed
  | failed
deriving DecidableEq, Repr

structure IdentifyOutcome where
  signalClosed : Bool
  event : IdEvent
  connClosed : Bool
  removedConn : Bool
  streamReset : Bool
  warned : Bool
  consumed : Option (List Nat)
deriving DecidableEq, Repr

structure IdentifyEnv where
  newStreamOk : Bool
  selectProtoOk : Bool
  wire : List Nat
deriving DecidableEq, Repr

/-- `identifyConn` (current `id.go`): open a stream, negotiate the protocol,
then run `handleIdentifyResponse`.  The deferred block closes the signal and
emits `PeerIdentificationCompleted` when the local `err` is nil and
`PeerIdentificationFailed` otherwise; `err` is only ever assigned by
`c.NewStream()` and `msmux.SelectOneOf`, never by `handleIdentifyResponse`. -/
def identifyConn (env : IdentifyEnv) : IdentifyOutcome :=
  if ¬ env.newStreamOk then
    ⟨true, .failed, true, true, false, false, none⟩
  else if ¬ env.selectProtoOk then
    ⟨true, .failed, false, false, true, false, none⟩
  else
    let h := handleIdentifyResponse env.wire
    ⟨true, .completed, false, false, h.streamReset, h.warned, h.consumed⟩

/-! ## Peer store operations

Modelled from the spec (§6): the peer store is a depended-on collaborator.
We model the slice of it that Identify touches for one remote peer: the
address book as an association list address ↦ TTL (`AddAddrs` upserts,
extending an existing TTL; `UpdateAddrs` rewrites one TTL into another),
the protocol list, the metadata entries and the stored public key.
TTLs are in nanoseconds as Go's `time.Duration`; `ConnectedAddrTTL` and
`RecentlyConnectedAddrTTL` are the collaborator's constants. -/

def oneSecond : Nat := 1000000000

/-- `transientTTL = 10 * time.Second` (concatenated source file, line 311). -/
def transientTTL : Nat := 10 * oneSecond

def connectedAddrTTL : Nat := 2 ^ 63 - 2

def recentlyConnectedAddrTTL : Nat := 600 * oneSecond

abbrev AddrBook := List (Addr × Nat)

def updateAddrs (book : AddrBook) (oldTTL newTTL : Nat) : AddrBook :=
  book.map fun p => if p.2 = oldTTL then (p.1, newTTL) else p

def addAddr (book : AddrBook) (a : Addr) (ttl : Nat) : AddrBook :=
  if book.any fun p => decide (p.1 = a) then
    book.map fun p => if p.1 = a then (a, max p.2 ttl) else p
  else book ++ [(a, ttl)]

def addAddrs (book : AddrBook) (addrs : List Addr) (ttl : Nat) : AddrBook :=
  addrs.foldl (fun b a => addAddr b a ttl) book

/-- An address the peer store still resolves: present with a nonzero TTL. -/
def addrAlive (book : AddrBook) (a : Addr) : Prop :=
  ∃ t, (a, t) ∈ book ∧ 0 < t

inductive MetaKey where
  | protocolVersion
  | agentVersion
deriving DecidableEq, Repr

abbrev ProtoId := Nat
abbrev PKey := Nat
abbrev PeerId := List Nat

inductive LogLevel where
  | debug
  | warn
  | error
deriving DecidableEq, Repr

/-- The slice of the peer store Identify touches for the remote peer. -/
structure PeerSlice where
  protocols : List ProtoId
  addrs : AddrBook
  meta : List (MetaKey × Nat)
  pubKey : Option PKey
deriving DecidableEq, Repr

def putMeta (meta : List (MetaKey × Nat)) (k : MetaKey) (v : Nat) :
    List (MetaKey × Nat) :=
  if meta.any fun p => decide (p.1 = k) then
    meta.map fun p => if p.1 = k then (k, v) else p
  else meta ++ [(k, v)]

/-! ## The Identify message and its builder/consumer

`pb.Identify` is the schema-compiled wire struct; address-valued fields
carry raw bytes.  A signed peer record is abstracted as the list of
addresses bound in a valid envelope (`none` for an absent field or an
envelope `record.ConsumeEnvelope` rejects); the crypto of the envelope is a
collaborator. -/

structure IdMsg where
  protocols : List ProtoId
  observedAddr : Option (List Nat)
  listenAddrs : List (List Nat)
  publicKey : Option (List Nat)
  protocolVersion : Nat
  agentVersion : Nat
  signedPeerRecord : Option (List Addr)
deriving DecidableEq, Repr

/-- Inputs `populateMessage` draws from the host and the connection. -/
structure HostView where
  protocols : List ProtoId
  hostAddrs : List Addr
  localMaddr : Addr
  remoteMaddr : Addr
  peerRecord : Option (List Addr)
  ownKey : Option (List Nat)
  userAgent : Nat
deriving DecidableEq, Repr

/-- `populateMessage` (current `id.go`, lines 667–737 of the concatenated
source file): protocol snapshot, the connection's remote multiaddr as
`ObservedAddr`, then either the signed peer record (when the negotiated
protocol supports peer records) or the host's listen addresses with
loopbacks skipped unless the connection itself is over loopback, then the
host's public key and the version strings. -/
def populateMessage (h : HostView) (usePeerRecords : Bool) : IdMsg :=
  let viaLoopback := isIPLoopback h.localMaddr || isIPLoopback h.remoteMaddr
  { protocols := h.protocols
    observedAddr := some (encodeAddr h.remoteMaddr)
    listenAddrs :=
      if usePeerRecords then []
      else ((h.hostAddrs.filter fun a => viaLoopback || ! isIPLoopback a).map
        encodeAddr)
    publicKey := h.ownKey
    protocolVersion := 0
    agentVersion := h.userAgent
    signedPeerRecord := if usePeerRecords then h.peerRecord else none }

/-- `consumeReceivedPubKey` (current `id.go`, lines 816–888 of the
concatenated source file).  `unmarshal` and `idFromKey` stand for the crypto
collaborators `ic.UnmarshalPublicKey` and `peer.IDFromPublicKey`; `stored`
is the peer store's key for the remote peer `rp`.  Returns the stored key
after the call and the log events (the branch for `rp = empty` writes the
new key under `rp`, exactly as `AddPubKey(rp, newKey)` does). -/
def consumeReceivedPubKey (unmarshal : List Nat → Option PKey)
    (idFromKey : PKey → Option PeerId) (rp : PeerId) (stored : Option PKey)
    (kb : Option (List Nat)) : Option PKey × List LogLevel :=
  match kb with
  | none => (stored, [.debug])
  | some bs =>
    match unmarshal bs with
    | none => (stored, [.warn])
    | some newKey =>
      match idFromKey newKey with
      | none => (stored, [.debug])
      | some np =>
        if np = rp then
          match stored with
          | none => (some newKey, [])
          | some currKey =>
            if currKey = newKey then (stored, [])
            else
              match idFromKey currKey with
              | none => (stored, [.error, .error])
              | some cp =>
                if cp = rp then (stored, [.error, .error])
                else (stored, [.error, .error])
        else
          if rp = [] ∧ np ≠ [] then (some newKey, [])
          else (stored, [.error])

/-- Connection data `consumeMessage` reads. -/
structure ConnView where
  remotePeer : PeerId
  remoteMaddr : Addr
  connected : Bool
  cabOk : Bool
deriving DecidableEq, Repr

def parseListenAddrs (msg : IdMsg) : List Addr :=
  msg.listenAddrs.filterMap decodeAddr

/-- `consumeMessage` (current `id.go`, lines 739–814 of the concatenated
source file): set protocols; forward a parsable `ObservedAddr` to the
observed-address manager (returned as the second component); parse
`ListenAddrs`, dropping entries that fail to decode; under the address
mutex demote the peer's previous `ConnectedAddrTTL` addresses to
`transientTTL` and then add either the signed peer record's addresses
(when the protocol supports peer records, the message carries a valid
record and the peer store has a certified address book) or the parsed
listen addresses, at `ConnectedAddrTTL` when connected else
`RecentlyConnectedAddrTTL`; store the version metadata; finally reconcile
the received public key.  The connection's remote multiaddr is never
appended to the added addresses. -/
def consumeMessage (unmarshal : List Nat → Option PKey)
    (idFromKey : PKey → Option PeerId) (msg : IdMsg) (c : ConnView)
    (usePeerRecords : Bool) (ps : PeerSlice) : PeerSlice × Option Addr :=
  let obsFwd := msg.observedAddr.bind decodeAddr
  let lmaddrs := parseListenAddrs msg
  let sr := if usePeerRecords then msg.signedPeerRecord else none
  let ttl := if c.connected then connectedAddrTTL else recentlyConnectedAddrTTL
  let demoted := updateAddrs ps.addrs connectedAddrTTL transientTTL
  let book :=
    match c.cabOk, sr with
    | true, some recAddrs => addAddrs demoted recAddrs ttl
    | true, none => addAddrs demoted lmaddrs ttl
    | false, _ => addAddrs demoted lmaddrs ttl
  let meta := putMeta (putMeta ps.meta .protocolVersion msg.protocolVersion)
    .agentVersion msg.agentVersion
  let key := (consumeReceivedPubKey unmarshal idFromKey c.remotePeer ps.pubKey
    msg.publicKey).1
  (⟨msg.protocols, book, meta, key⟩, obsFwd)

/-- The addresses `consumeMessage` hands to the peer store's add call. -/
def consumedAddrs (msg : IdMsg) (c : ConnView) (usePeerRecords : Bool) :
    List Addr :=
  match c.cabOk, (if usePeerRecords then msg.signedPeerRecord else none) with
  | true, some recAddrs => recAddrs
  | _, _ => parseListenAddrs msg

/-! ## Lemmas: the observed-address manager worker -/

theorem inWindow_mono {now ttl t t' : Nat} (h : t ≤ t')
    (hw : inWindow now ttl t = true) : inWindow now ttl t' = true := by
  simp only [inWindow, decide_eq_true_eq] at hw ⊢
  exact le_trans (Nat.sub_le_sub_left h now) hw

theorem mem_upsertSeen_ne {s : List (GroupKey × Nat)} {g g' : GroupKey}
    {t t' : Nat} (hne : g' ≠ g) :
    ((g', t') ∈ upsertSeen s g t) ↔ (g', t') ∈ s := by
  unfold upsertSeen
  split
  · simp only [List.mem_map]
    constructor
    · rintro ⟨p, hp, hpe⟩
      by_cases hpg : p.1 = g
      · simp [hpg] at hpe
        exact absurd hpe.1.symm hne
      · simpa [hpg, ← hpe] using hp
    · intro hmem
      refine ⟨(g', t'), hmem, ?_⟩
      simp [hne]
  · simp [hne]

theorem mem_upsertSeen_self_time {s : List (GroupKey × Nat)} {g : GroupKey}
    {t t' : Nat} (h : (g, t') ∈ upsertSeen s g t) : t' = t := by
  unfold upsertSeen at h
  split at h
  · simp only [List.mem_map] at h
    obtain ⟨p, _, hpe⟩ := h
    by_cases hpg : p.1 = g
    · rw [if_pos hpg, Prod.mk.injEq] at hpe
      exact hpe.2.symm
    · rw [if_neg hpg] at hpe
      exact absurd (congrArg Prod.fst hpe) hpg
  · rename_i hany
    simp only [List.mem_append, List.mem_singleton] at h
    rcases h with h | h
    · have : (s.any fun p => decide (p.1 = g)) = true := by
        simp only [List.any_eq_true, decide_eq_true_eq]
        exact ⟨(g, t'), h, rfl⟩
      exact absurd this hany
    · rw [Prod.mk.injEq] at h
      exact h.2

theorem mem_upsertSeen_self (s : List (GroupKey × Nat)) (g : GroupKey)
    (t : Nat) : (g, t) ∈ upsertSeen s g t := by
  unfold upsertSeen
  split
  · rename_i hany
    simp only [List.any_eq_true, decide_eq_true_eq] at hany
    obtain ⟨p, hp, hpg⟩ := hany
    simp only [List.mem_map]
    exact ⟨p, hp, by simp [hpg]⟩
  · simp

theorem seenOf_eq_nil_of_any_false {entries : List ObsEntry} {A : Addr}
    {d : Direction}
    (h : (entries.any fun e => decide (e.addr = A ∧ e.dir = d)) = false) :
    seenOf entries A d = [] := by
  induction entries with
  | nil => rfl
  | cons e es ih =>
    simp only [List.any_cons, Bool.or_eq_false_iff] at h
    rw [seenOf, if_neg (by simpa using h.1)]
    exact ih h.2

theorem seenOf_cons (e : ObsEntry) (es : List ObsEntry) (A : Addr)
    (d : Direction) :
    seenOf (e :: es) A d =
      if e.addr = A ∧ e.dir = d then e.seenBy else seenOf es A d := rfl

theorem seenOf_append (l l' : List ObsEntry) (A : Addr) (d : Direction) :
    seenOf (l ++ l') A d =
      if (l.any fun e => decide (e.addr = A ∧ e.dir = d)) = true then
        seenOf l A d
      else seenOf l' A d := by
  induction l with
  | nil => simp [seenOf]
  | cons e es ih =>
    by_cases he : e.addr = A ∧ e.dir = d
    · simp [seenOf_cons, he]
    · have hany : ((e :: es).any fun e => decide (e.addr = A ∧ e.dir = d)) =
          (es.any fun e => decide (e.addr = A ∧ e.dir = d)) := by
        simp [he]
      rw [List.cons_append, seenOf_cons, if_neg he, ih, hany, seenOf_cons,
        if_neg he]

theorem seenOf_map_update (entries : List ObsEntry) (o : Observation)
    (A : Addr) (d : Direction) :
    seenOf (entries.map fun e =>
        if e.addr = o.observed ∧ e.dir = o.dir then
          { e with
            seenBy := upsertSeen e.seenBy (observerGroup o.observer) o.time
            locals := insertIfNew e.locals o.localAddr }
        else e) A d =
      if o.observed = A ∧ o.dir = d ∧
          (entries.any fun e => decide (e.addr = A ∧ e.dir = d)) = true then
        upsertSeen (seenOf entries A d) (observerGroup o.observer) o.time
      else seenOf entries A d := by
  induction entries with
  | nil => simp [seenOf]
  | cons e es ih =>
    rw [List.map_cons, seenOf_cons]
    by_cases he : e.addr = A ∧ e.dir = d
    · have hkey : ((if e.addr = o.observed ∧ e.dir = o.dir then
          { e with
            seenBy := upsertSeen e.seenBy (observerGroup o.observer) o.time
            locals := insertIfNew e.locals o.localAddr }
          else e).addr = A ∧
          (if e.addr = o.observed ∧ e.dir = o.dir then
          { e with
            seenBy := upsertSeen e.seenBy (observerGroup o.observer) o.time
            locals := insertIfNew e.locals o.localAddr }
          else e).dir = d) := by
        split <;> exact he
      rw [if_pos hkey]
      by_cases ho : o.observed = A ∧ o.dir = d
      · have heo : e.addr = o.observed ∧ e.dir = o.dir :=
          ⟨he.1.trans ho.1.symm, he.2.trans ho.2.symm⟩
        rw [if_pos heo, if_pos ⟨ho.1, ho.2, by simp [he]⟩, seenOf_cons,
          if_pos he]
      · have heo : ¬(e.addr = o.observed ∧ e.dir = o.dir) := fun hc =>
          ho ⟨hc.1.symm.trans he.1, hc.2.symm.trans he.2⟩
        rw [if_neg heo,
          if_neg (fun hc : o.observed = A ∧ o.dir = d ∧ _ =>
            ho ⟨hc.1, hc.2.1⟩),
          seenOf_cons, if_pos he]
    · have hkey : ¬((if e.addr = o.observed ∧ e.dir = o.dir then
          { e with
            seenBy := upsertSeen e.seenBy (observerGroup o.observer) o.time
            locals := insertIfNew e.locals o.localAddr }
          else e).addr = A ∧
          (if e.addr = o.observed ∧ e.dir = o.dir then
          { e with
            seenBy := upsertSeen e.seenBy (observerGroup o.observer) o.time
            locals := insertIfNew e.locals o.localAddr }
          else e).dir = d) := by
        split <;> exact he
      rw [if_neg hkey, ih]
      have hany : ((e :: es).any fun e => decide (e.addr = A ∧ e.dir = d)) =
          (es.any fun e => decide (e.addr = A ∧ e.dir = d)) := by
        simp [he]
      rw [hany, seenOf_cons, if_neg he]

theorem seenOf_record (st : ObsState) (o : Observation) (A : Addr)
    (d : Direction) :
    seenOf (record st o).entries A d =
      if o.observed = A ∧ o.dir = d then
        upsertSeen (seenOf st.entries A d) (observerGroup o.observer) o.time
      else seenOf st.entries A d := by
  unfold record
  split
  · rename_i hany
    rw [seenOf_map_update]
    by_cases ho : o.observed = A ∧ o.dir = d
    · have : (st.entries.any fun e => decide (e.addr = A ∧ e.dir = d)) =
          true := by
        rw [← ho.1, ← ho.2]
        exact hany
      rw [if_pos ⟨ho.1, ho.2, this⟩, if_pos ho]
    · rw [if_neg (fun hc : o.observed = A ∧ o.dir = d ∧ _ => ho ⟨hc.1, hc.2.1⟩),
        if_neg ho]
  · rename_i hany
    rw [seenOf_append]
    by_cases ho : o.observed = A ∧ o.dir = d
    · have hf : (st.entries.any fun e => decide (e.addr = A ∧ e.dir = d)) =
          false := by
        rw [← ho.1, ← ho.2]
        simpa using hany
      have hf' : ¬((st.entries.any fun e =>
          decide (e.addr = A ∧ e.dir = d)) = true) := by
        rw [hf]
        exact Bool.false_ne_true
      rw [if_neg hf', if_pos ho, seenOf_cons, if_pos ⟨ho.1, ho.2⟩,
        seenOf_eq_nil_of_any_false hf]
      unfold upsertSeen
      simp
    · by_cases hA : (st.entries.any fun e => decide (e.addr = A ∧ e.dir = d)) =
          true
      · rw [if_pos hA, if_neg ho]
      · rw [if_neg hA, if_neg ho, seenOf_cons,
          if_neg (fun hc : _ ∧ _ => ho ⟨hc.1, hc.2⟩), seenOf,
          seenOf_eq_nil_of_any_false (by simpa using hA)]

theorem record_ttl (st : ObsState) (o : Observation) :
    (record st o).ttl = st.ttl := by
  unfold record
  split <;> rfl

theorem foldl_record_ttl (obs : List Observation) (st : ObsState) :
    (obs.foldl record st).ttl = st.ttl := by
  induction obs generalizing st with
  | nil => rfl
  | cons o os ih => rw [List.foldl_cons, ih, record_ttl]

theorem replay_ttl (ttl : Nat) (obs : List Observation) :
    (replay ttl obs).ttl = ttl := foldl_record_ttl obs _

theorem replay_snoc (ttl : Nat) (obs : List Observation) (o : Observation) :
    replay ttl (obs ++ [o]) = record (replay ttl obs) o := by
  unfold replay
  rw [List.foldl_append, List.foldl_cons, List.foldl_nil]

/-- The entry keys (address, direction) of a state are pairwise distinct. -/
abbrev entryKeyNodup (entries : List ObsEntry) : Prop :=
  entries.Pairwise fun e1 e2 => ¬(e1.addr = e2.addr ∧ e1.dir = e2.dir)

theorem record_keyNodup {st : ObsState} (h : entryKeyNodup st.entries)
    (o : Observation) : entryKeyNodup (record st o).entries := by
  unfold record
  split
  · refine List.Pairwise.map _ (fun e1 e2 h12 => ?_) h
    intro hc
    apply h12
    constructor
    · have k1 : (if e1.addr = o.observed ∧ e1.dir = o.dir then
          { e1 with
            seenBy := upsertSeen e1.seenBy (observerGroup o.observer) o.time
            locals := insertIfNew e1.locals o.localAddr }
          else e1).addr = e1.addr := by split <;> rfl
      have k2 : (if e2.addr = o.observed ∧ e2.dir = o.dir then
          { e2 with
            seenBy := upsertSeen e2.seenBy (observerGroup o.observer) o.time
            locals := insertIfNew e2.locals o.localAddr }
          else e2).addr = e2.addr := by split <;> rfl
      rw [← k1, ← k2]
      exact hc.1
    · have k1 : (if e1.addr = o.observed ∧ e1.dir = o.dir then
          { e1 with
            seenBy := upsertSeen e1.seenBy (observerGroup o.observer) o.time
            locals := insertIfNew e1.locals o.localAddr }
          else e1).dir = e1.dir := by split <;> rfl
      have k2 : (if e2.addr = o.observed ∧ e2.dir = o.dir then
          { e2 with
            seenBy := upsertSeen e2.seenBy (observerGroup o.observer) o.time
            locals := insertIfNew e2.locals o.localAddr }
          else e2).dir = e2.dir := by split <;> rfl
      rw [← k1, ← k2]
      exact hc.2
  · rename_i hany
    rw [entryKeyNodup, List.pairwise_append]
    refine ⟨h, List.pairwise_singleton _ _, fun e he e' he' => ?_⟩
    rw [List.mem_singleton] at he'
    subst he'
    intro hc
    have : (st.entries.any fun e => decide (e.addr = o.observed ∧
        e.dir = o.dir)) = true := by
      simp only [List.any_eq_true, decide_eq_true_eq]
      exact ⟨e, he, hc.1, hc.2⟩
    exact absurd this hany

theorem replay_keyNodup (ttl : Nat) (obs : List Observation) :
    entryKeyNodup (replay ttl obs).entries := by
  have aux : ∀ (l : List Observation) (st : ObsState),
      entryKeyNodup st.entries → entryKeyNodup (l.foldl record st).entries := by
    intro l
    induction l with
    | nil => exact fun st h => h
    | cons o os ih =>
      intro st h
      rw [List.foldl_cons]
      exact ih _ (record_keyNodup h o)
  exact aux obs ⟨[], ttl⟩ List.Pairwise.nil

theorem seenOf_of_mem {entries : List ObsEntry} (hnd : entryKeyNodup entries)
    {e : ObsEntry} (he : e ∈ entries) :
    seenOf entries e.addr e.dir = e.seenBy := by
  induction entries with
  | nil => cases he
  | cons e0 es ih =>
    rw [entryKeyNodup, List.pairwise_cons] at hnd
    rw [List.mem_cons] at he
    rw [seenOf_cons]
    by_cases h0 : e0.addr = e.addr ∧ e0.dir = e.dir
    · rw [if_pos h0]
      rcases he with he | he
      · rw [he]
      · exact absurd h0 (hnd.1 e he)
    · rcases he with he | he
      · exact absurd ⟨congrArg ObsEntry.addr he.symm,
          congrArg ObsEntry.dir he.symm⟩ h0
      · rw [if_neg h0]
        exact ih hnd.2 he

theorem exists_entry_of_seenOf_ne {entries : List ObsEntry} {A : Addr}
    {d : Direction} (h : seenOf entries A d ≠ []) :
    ∃ e ∈ entries, e.addr = A ∧ e.dir = d ∧ e.seenBy = seenOf entries A d := by
  induction entries with
  | nil => exact absurd rfl h
  | cons e0 es ih =>
    rw [seenOf_cons] at h ⊢
    by_cases h0 : e0.addr = A ∧ e0.dir = d
    · rw [if_pos h0] at h ⊢
      exact ⟨e0, List.mem_cons_self .., h0.1, h0.2, rfl⟩
    · rw [if_neg h0] at h ⊢
      obtain ⟨e, he, hp⟩ := ih h
      exact ⟨e, List.mem_cons_of_mem _ he, hp⟩

theorem mem_Addrs_iff (st : ObsState) (now : Nat) (A : Addr) :
    A ∈ Addrs st now ↔
      ∃ e ∈ st.entries, e.addr = A ∧ entryActivated now st.ttl e = true := by
  unfold Addrs
  rw [List.mem_dedup, List.mem_map]
  constructor
  · rintro ⟨e, he, rfl⟩
    rw [List.mem_filter] at he
    exact ⟨e, he.1, rfl, he.2⟩
  · rintro ⟨e, he, rfl, hact⟩
    exact ⟨e, List.mem_filter.2 ⟨he, hact⟩, rfl⟩

theorem dedup_length_eq_of_mem_iff {l1 l2 : List GroupKey}
    (h : ∀ g, g ∈ l1 ↔ g ∈ l2) : l1.dedup.length = l2.dedup.length := by
  rw [← List.card_toFinset, ← List.card_toFinset]
  congr 1
  ext g
  rw [List.mem_toFinset, List.mem_toFinset]
  exact h g

theorem mem_groupsInWindow {seen : List (GroupKey × Nat)} {now ttl : Nat}
    {g : GroupKey} :
    g ∈ groupsInWindow seen now ttl ↔
      ∃ t, (g, t) ∈ seen ∧ inWindow now ttl t = true := by
  unfold groupsInWindow
  rw [List.mem_map]
  constructor
  · rintro ⟨p, hp, rfl⟩
    rw [List.mem_filter] at hp
    exact ⟨p.2, hp.1, hp.2⟩
  · rintro ⟨t, ht, hw⟩
    exact ⟨(g, t), List.mem_filter.2 ⟨ht, hw⟩, rfl⟩

theorem mem_reportedGroups {obs : List Observation} {A : Addr}
    {d : Direction} {now ttl : Nat} {g : GroupKey} :
    g ∈ reportedGroups obs A d now ttl ↔
      ∃ o ∈ obs, o.observed = A ∧ o.dir = d ∧
        observerGroup o.observer = g ∧ inWindow now ttl o.time = true := by
  unfold reportedGroups
  rw [List.mem_map]
  constructor
  · rintro ⟨o, ho, rfl⟩
    rw [List.mem_filter, Bool.and_eq_true, decide_eq_true_eq] at ho
    exact ⟨o, ho.1, ho.2.1.1, ho.2.1.2, rfl, ho.2.2⟩
  · rintro ⟨o, ho, hA, hd, rfl, hw⟩
    exact ⟨o, List.mem_filter.2 ⟨ho, by
      rw [Bool.and_eq_true, decide_eq_true_eq]
      exact ⟨⟨hA, hd⟩, hw⟩⟩, rfl⟩

/-- State/history correspondence for the worker: a group's stored last-seen
is within the TTL window exactly when the group reported the entry's key
within the window, provided observations were replayed in time order. -/
theorem mem_seenOf_replay (ttl now : Nat) (obs : List Observation)
    (hs : obs.Pairwise fun o1 o2 => o1.time ≤ o2.time) (A : Addr)
    (d : Direction) (g : GroupKey) :
    (∃ t, (g, t) ∈ seenOf (replay ttl obs).entries A d ∧
        inWindow now ttl t = true) ↔
      ∃ o ∈ obs, o.observed = A ∧ o.dir = d ∧
        observerGroup o.observer = g ∧ inWindow now ttl o.time = true := by
  induction obs using List.reverseRecOn with
  | nil =>
    simp [replay, seenOf]
  | append_singleton l o ih =>
    rw [List.pairwise_append] at hs
    obtain ⟨hl, _, hle⟩ := hs
    have hle' : ∀ o' ∈ l, o'.time ≤ o.time := fun o' h =>
      hle o' h o (List.mem_singleton_self o)
    rw [replay_snoc, seenOf_record]
    by_cases ho : o.observed = A ∧ o.dir = d
    · rw [if_pos ho]
      by_cases hg : observerGroup o.observer = g
      · subst hg
        constructor
        · rintro ⟨t, ht, hw⟩
          rw [mem_upsertSeen_self_time ht] at hw
          exact ⟨o, by simp, ho.1, ho.2, rfl, hw⟩
        · rintro ⟨o', ho', hA, hd, hgg, hw⟩
          rw [List.mem_append, List.mem_singleton] at ho'
          refine ⟨o.time, mem_upsertSeen_self .., ?_⟩
          rcases ho' with ho' | rfl
          · exact inWindow_mono (hle' o' ho') hw
          · exact hw
      · constructor
        · rintro ⟨t, ht, hw⟩
          rw [mem_upsertSeen_ne (fun hc => hg hc.symm)] at ht
          obtain ⟨o', ho', hrest⟩ := (ih hl).1 ⟨t, ht, hw⟩
          exact ⟨o', List.mem_append_left _ ho', hrest⟩
        · rintro ⟨o', ho', hA, hd, hgg, hw⟩
          rw [List.mem_append, List.mem_singleton] at ho'
          rcases ho' with ho' | rfl
          · obtain ⟨t, ht, hw'⟩ := (ih hl).2 ⟨o', ho', hA, hd, hgg, hw⟩
            exact ⟨t, (mem_upsertSeen_ne (fun hc => hg hc.symm)).2 ht, hw'⟩
          · exact absurd hgg hg
    · rw [if_neg ho]
      constructor
      · intro h
        obtain ⟨o', ho', hrest⟩ := (ih hl).1 h
        exact ⟨o', List.mem_append_left _ ho', hrest⟩
      · rintro ⟨o', ho', hA, hd, hgg, hw⟩
        rw [List.mem_append, List.mem_singleton] at ho'
        rcases ho' with ho' | rfl
        · exact (ih hl).2 ⟨o', ho', hA, hd, hgg, hw⟩
        · exact absurd ⟨hA, hd⟩ ho

theorem mem_upsertSeen_keys {s : List (GroupKey × Nat)} {g x : GroupKey}
    {t : Nat} :
    x ∈ (upsertSeen s g t).map Prod.fst ↔ x = g ∨ x ∈ s.map Prod.fst := by
  unfold upsertSeen
  split
  · rename_i hany
    simp only [List.map_map, List.mem_map, Function.comp]
    constructor
    · rintro ⟨p, hp, he⟩
      by_cases hpg : p.1 = g
      · rw [if_pos hpg] at he
        exact Or.inl he.symm
      · rw [if_neg hpg] at he
        exact Or.inr ⟨p, hp, he⟩
    · rintro (rfl | hx)
      · simp only [List.any_eq_true, decide_eq_true_eq] at hany
        obtain ⟨p, hp, hpg⟩ := hany
        exact ⟨p, hp, by rw [if_pos hpg]⟩
      · obtain ⟨p, hp, he⟩ := hx
        by_cases hpg : p.1 = g
        · exact ⟨p, hp, by rw [if_pos hpg, ← he, hpg]⟩
        · exact ⟨p, hp, by rw [if_neg hpg]; exact he⟩
  · simp only [List.map_append, List.mem_append, List.map_cons, List.map_nil,
      List.mem_singleton]
    exact or_comm

/-- C1 (amended): the observer group of an IPv4-bearing observer address is
the observer's bare IP (its first multiaddr component, transport and port
stripped): two observers with equal IPs fall in one group regardless of
port, observers with different IPs fall in different groups (even inside
one /16), and recording a second observation whose observer lies in the
same group as an earlier one adds no new observer group to the entry, so
such observers count as a single source toward the activation threshold. -/
theorem observerGroup_is_ip (a b c d p q a' b' c' d' : Nat) (st : ObsState)
    (o1 o2 : Observation) :
    observerGroup (.ip4 a b c d p) = observerGroup (.ip4 a b c d q) ∧
    (observerGroup (.ip4 a b c d p) = observerGroup (.ip4 a' b' c' d' q) →
      a = a' ∧ b = b' ∧ c = c' ∧ d = d') ∧
    (o1.observed = o2.observed → o1.dir = o2.dir →
      observerGroup o1.observer = observerGroup o2.observer →
      ((seenOf (record (record st o1) o2).entries o1.observed o1.dir).map
          Prod.fst).toFinset =
        ((seenOf (record st o1).entries o1.observed o1.dir).map
          Prod.fst).toFinset) := by
  refine ⟨rfl, ?_, ?_⟩
  · intro h
    simp only [observerGroup, List.cons.injEq] at h
    exact ⟨h.2.1, h.2.2.1, h.2.2.2.1, h.2.2.2.2.1⟩
  · intro hobs hdir hg
    rw [seenOf_record (record st o1) o2 o1.observed o1.dir,
      if_pos ⟨hobs.symm, hdir.symm⟩,
      seenOf_record st o1 o1.observed o1.dir, if_pos ⟨rfl, rfl⟩]
    ext x
    simp only [List.mem_toFinset, mem_upsertSeen_keys]
    constructor
    · rintro (rfl | h)
      · exact Or.inl hg.symm
      · exact h
    · exact fun h => Or.inr h

/-- C1 counterexample: the observation sequence of `TestObsAddrSet` up to
its `Addrs() == [a1]` assertion.  All five observers (`1.2.3.4` twice with
two ports, `1.2.3.6`, `1.2.3.7`, `1.2.3.8`) lie in the single /16 network
`1.2.0.0/16` — the spec's masked grouping puts them in one group — yet they
form 4 distinct observer groups and activate `a1` exactly as the in-source
test demands, so two observers sharing a /16 do not count as a single
source. -/
theorem observerGroup_not_masked16_cex :
    Addrs (replay 1800 testObs) 11 = [tA1] ∧
    Addrs (replay 1800 (testObs.take 9)) 8 = [] ∧
    ([tA4, tA5, tB1, tB2, tB3].map observerGroup).dedup.length = 4 ∧
    ([tA4, tA5, tB1, tB2, tB3].map maskedObserverGroup).dedup.length = 1 := by
  decide

/-- C2 (amended): for observations replayed in time order, an address is in
`Addrs()` exactly when, for some single direction, at least
`ActivationThresh = 4` distinct observer groups have reported it with that
direction within the current TTL window.  (Groups split across the inbound
and outbound entries of the same address do not pool.) -/
theorem Addrs_iff_reportedGroups (ttl now : Nat) (obs : List Observation)
    (A : Addr) (hs : obs.Pairwise fun o1 o2 => o1.time ≤ o2.time) :
    A ∈ Addrs (replay ttl obs) now ↔
      ∃ d, activationThresh ≤ (reportedGroups obs A d now ttl).dedup.length := by
  rw [mem_Addrs_iff, replay_ttl]
  constructor
  · rintro ⟨e, he, rfl, hact⟩
    refine ⟨e.dir, ?_⟩
    simp only [entryActivated, decide_eq_true_eq] at hact
    have hseen : seenOf (replay ttl obs).entries e.addr e.dir = e.seenBy :=
      seenOf_of_mem (replay_keyNodup ttl obs) he
    have hiff : ∀ g, g ∈ groupsInWindow e.seenBy now ttl ↔
        g ∈ reportedGroups obs e.addr e.dir now ttl := by
      intro g
      rw [mem_groupsInWindow, mem_reportedGroups, ← hseen]
      exact mem_seenOf_replay ttl now obs hs e.addr e.dir g
    rw [← dedup_length_eq_of_mem_iff hiff]
    exact hact
  · rintro ⟨d, hcount⟩
    have hpos : 0 < (reportedGroups obs A d now ttl).dedup.length :=
      lt_of_lt_of_le (by norm_num [activationThresh]) hcount
    obtain ⟨g, hg⟩ := List.exists_mem_of_length_pos hpos
    rw [List.mem_dedup] at hg
    obtain ⟨t, ht, hw⟩ :=
      (mem_seenOf_replay ttl now obs hs A d g).2 (mem_reportedGroups.1 hg)
    have hne : seenOf (replay ttl obs).entries A d ≠ [] := by
      intro hnil
      rw [hnil] at ht
      exact List.not_mem_nil _ ht
    obtain ⟨e, he, hA, hd, hseen⟩ := exists_entry_of_seenOf_ne hne
    refine ⟨e, he, hA, ?_⟩
    simp only [entryActivated, decide_eq_true_eq]
    have hiff : ∀ g', g' ∈ groupsInWindow e.seenBy now ttl ↔
        g' ∈ reportedGroups obs A d now ttl := by
      intro g'
      rw [mem_groupsInWindow, mem_reportedGroups, hseen, ← hA, ← hd]
      rw [hA, hd]
      exact mem_seenOf_replay ttl now obs hs A d g'
    rw [dedup_length_eq_of_mem_iff hiff]
    exact hcount

/-- C2 witness: the amended equivalence applied to a concrete in-order
history of four same-direction reports from four distinct groups. -/
theorem Addrs_iff_reportedGroups_witness :
    (([⟨tA1, tLo, tB1, .outbound, 0⟩, ⟨tA1, tLo, tB2, .outbound, 1⟩,
       ⟨tA1, tLo, tB3, .outbound, 2⟩, ⟨tA1, tLo, tA4, .outbound, 3⟩] :
        List Observation).Pairwise fun o1 o2 => o1.time ≤ o2.time) ∧
    (tA1 ∈ Addrs (replay 1800
        [⟨tA1, tLo, tB1, .outbound, 0⟩, ⟨tA1, tLo, tB2, .outbound, 1⟩,
         ⟨tA1, tLo, tB3, .outbound, 2⟩, ⟨tA1, tLo, tA4, .outbound, 3⟩]) 3 ↔
      ∃ d, activationThresh ≤
        (reportedGroups
          [⟨tA1, tLo, tB1, .outbound, 0⟩, ⟨tA1, tLo, tB2, .outbound, 1⟩,
           ⟨tA1, tLo, tB3, .outbound, 2⟩, ⟨tA1, tLo, tA4, .outbound, 3⟩]
          tA1 d 3 1800).dedup.length) :=
  ⟨by decide, Addrs_iff_reportedGroups 1800 3 _ tA1 (by decide)⟩

/-- C2 counterexample: four distinct observer groups report the same
address within the TTL window, two inbound and two outbound.  The claim's
count (distinct groups regardless of direction) reaches the activation
threshold, yet the address is not in `Addrs()`: each per-direction entry
holds only two groups. -/
theorem Addrs_direction_split_cex :
    activationThresh ≤
      (reportedGroupsAnyDir
        [⟨.ip4 9 9 9 9 1234, tLo, .ip4 1 0 0 1 1, .inbound, 0⟩,
         ⟨.ip4 9 9 9 9 1234, tLo, .ip4 2 0 0 1 1, .inbound, 1⟩,
         ⟨.ip4 9 9 9 9 1234, tLo, .ip4 3 0 0 1 1, .outbound, 2⟩,
         ⟨.ip4 9 9 9 9 1234, tLo, .ip4 4 0 0 1 1, .outbound, 3⟩]
        (.ip4 9 9 9 9 1234) 3 1800).dedup.length ∧
    .ip4 9 9 9 9 1234 ∉
      Addrs (replay 1800
        [⟨.ip4 9 9 9 9 1234, tLo, .ip4 1 0 0 1 1, .inbound, 0⟩,
         ⟨.ip4 9 9 9 9 1234, tLo, .ip4 2 0 0 1 1, .inbound, 1⟩,
         ⟨.ip4 9 9 9 9 1234, tLo, .ip4 3 0 0 1 1, .outbound, 2⟩,
         ⟨.ip4 9 9 9 9 1234, tLo, .ip4 4 0 0 1 1, .outbound, 3⟩]) 3 := by
  decide

/-! ## Lemmas: the connection-identification registry -/

/-- Registry invariant: signals are allocated below the counter, closed
signals are pairwise distinct and never those of still-running routines,
and running routines carry pairwise-distinct signals. -/
def RegInv (st : RegState) : Prop :=
  (∀ s ∈ st.closed, s < st.nextSig) ∧
  (∀ p ∈ st.live, p.2 < st.nextSig) ∧
  st.closed.Nodup ∧
  (∀ p ∈ st.live, p.2 ∉ st.closed) ∧
  st.live.Pairwise fun p q => p.2 ≠ q.2

theorem regStep_inv {st : RegState} (h : RegInv st) (a : RegStep) :
    RegInv (regStep st a) := by
  obtain ⟨h1, h2, h3, h4, h5⟩ := h
  cases a with
  | wait c =>
    show RegInv (identifyWaitStep st c).1
    unfold identifyWaitStep
    cases hl : lookupSig st.conns c with
    | some s => exact ⟨h1, h2, h3, h4, h5⟩
    | none =>
      refine ⟨fun s hs => Nat.lt_succ_of_lt (h1 s hs), ?_, h3, ?_, ?_⟩
      · intro p hp
        rcases List.mem_cons.1 hp with rfl | hp
        · exact Nat.lt_succ_self _
        · exact Nat.lt_succ_of_lt (h2 p hp)
      · intro p hp
        rcases List.mem_cons.1 hp with rfl | hp
        · exact fun hc => Nat.lt_irrefl _ (h1 _ hc)
        · exact h4 p hp
      · rw [List.pairwise_cons]
        exact ⟨fun q hq => (Nat.ne_of_lt (h2 q hq)).symm, h5⟩
  | disconnect c =>
    exact ⟨h1, h2, h3, h4, h5⟩
  | finish c s =>
    show RegInv (finishStep st c s)
    unfold finishStep
    split
    · rename_i hany
      simp only [List.any_eq_true, decide_eq_true_eq] at hany
      obtain ⟨p0, hp0, rfl⟩ := hany
      refine ⟨?_, ?_, ?_, ?_, ?_⟩
      · intro s' hs'
        rcases List.mem_cons.1 hs' with rfl | hs'
        · exact h2 _ hp0
        · exact h1 s' hs'
      · exact fun p hp => h2 p (List.mem_of_mem_filter hp)
      · exact List.nodup_cons.2 ⟨h4 _ hp0, h3⟩
      · intro p hp
        rw [List.mem_filter, decide_eq_true_eq] at hp
        intro hmem
        rcases List.mem_cons.1 hmem with hps | hps
        · exact List.Pairwise.forall (fun _ _ hxy => Ne.symm hxy) h5
            hp.1 hp0 hp.2 hps
        · exact h4 p hp.1 hps
      · exact List.Pairwise.sublist (List.filter_sublist _) h5
    · exact ⟨h1, h2, h3, h4, h5⟩

theorem runReg_inv (steps : List RegStep) : RegInv (runReg steps) := by
  have aux : ∀ (l : List RegStep) (st : RegState), RegInv st →
      RegInv (l.foldl regStep st) := by
    intro l
    induction l with
    | nil => exact fun st h => h
    | cons a as ih =>
      intro st h
      rw [List.foldl_cons]
      exact ih _ (regStep_inv h a)
  refine aux steps _ ⟨?_, ?_, List.nodup_nil, ?_, List.Pairwise.nil⟩ <;>
    simp

/-- C5 (amended): while the registry holds a completion signal for a
connection, every `IdentifyWait` on that connection returns that same
signal and spawns no new identification routine (the state is unchanged);
and every completion signal is closed at most once — it is closed exactly
when its routine finishes.  The original "at most one routine at any time"
fails once a disconnect removes the registry entry while the routine is
still running (see the counterexample), which is the one weakening made. -/
theorem identifyWait_registry (steps : List RegStep) (c s : Nat) :
    (lookupSig (runReg steps).conns c = some s →
      identifyWaitStep (runReg steps) c = ((runReg steps), s)) ∧
    (runReg steps).closed.count s ≤ 1 := by
  constructor
  · intro h
    unfold identifyWaitStep
    rw [h]
  · exact List.nodup_iff_count_le_one.1 (runReg_inv steps).2.2.1 s

/-- C5 counterexample: `IdentifyWait` spawns routine (0,0); a disconnect
removes the registry entry while that routine still runs (its signal is not
yet closed); a second `IdentifyWait` then returns a different signal and
spawns a second routine, so two identification routines for connection 0
are live at once. -/
theorem identifyWait_two_routines_cex :
    (((runReg [.wait 0, .disconnect 0, .wait 0]).live.filter
        fun p => decide (p.1 = 0)).length = 2) ∧
    (runReg [.wait 0, .disconnect 0]).live = [(0, 0)] ∧
    (runReg [.wait 0, .disconnect 0]).closed = [] ∧
    (identifyWaitStep (runReg [.wait 0, .disconnect 0]) 0).2 = 1 := by
  decide

theorem decodeUvarint_encode (n : Nat) (r : List Nat) :
    decodeUvarint (encodeUvarint n ++ r) = some (n, r) := by
  induction n using Nat.strong_induction_on with
  | _ n ih =>
    rw [encodeUvarint]
    split
    · rename_i h
      simp [decodeUvarint, h]
    · rename_i h
      rw [List.cons_append]
      have h128 : ¬(n % 128 + 128 < 128) := by omega
      simp only [decodeUvarint, if_neg h128,
        ih (n / 128) (Nat.div_lt_self (by omega) (by omega))]
      have : n % 128 + 128 - 128 + 128 * (n / 128) = n := by omega
      rw [this]

/-- C9: each of the identify-response, push and delta stream handlers
performs exactly one delimited read, and a message whose payload exceeds
the 2048-byte cap fails to decode: the read errors and the handler resets
the stream, consuming nothing. -/
theorem handleIdentifyResponse_one_read_cap (payload rest : List Nat)
    (hlen : idMaxMessageSize < payload.length) :
    handleIdentifyResponse (encodeUvarint payload.length ++ (payload ++ rest)) =
      ⟨1, true, true, none⟩ ∧
    pushDeltaHandler (encodeUvarint payload.length ++ (payload ++ rest)) =
      ⟨1, true, true, none⟩ ∧
    (∀ wire, (handleIdentifyResponse wire).reads = 1) := by
  have hread : readDelimited idMaxMessageSize
      (encodeUvarint payload.length ++ (payload ++ rest)) = none := by
    unfold readDelimited
    rw [decodeUvarint_encode]
    simp [hlen]
  have hh : handleIdentifyResponse
      (encodeUvarint payload.length ++ (payload ++ rest)) =
      ⟨1, true, true, none⟩ := by
    unfold handleIdentifyResponse
    rw [hread]
  refine ⟨hh, hh, fun wire => ?_⟩
  unfold handleIdentifyResponse
  split <;> rfl

/-- C9 witness: a 2049-byte message fails the read of every handler. -/
theorem handleIdentifyResponse_one_read_cap_witness :
    idMaxMessageSize < (List.replicate 2049 (0 : Nat)).length ∧
    handleIdentifyResponse (encodeUvarint (List.replicate 2049 (0 : Nat)).length
      ++ (List.replicate 2049 (0 : Nat) ++ [])) = ⟨1, true, true, none⟩ := by
  have h : idMaxMessageSize < (List.replicate 2049 (0 : Nat)).length := by
    rw [List.length_replicate]
    norm_num [idMaxMessageSize]
  exact ⟨h, (handleIdentifyResponse_one_read_cap _ _ h).1⟩

/-- C3 (code bug): when the stream opens and protocol negotiation succeeds
but the delimited Identify read fails (here on the malformed one-byte wire
`[0xC8]`, a truncated varint), `identifyConn` resets the stream and logs a
warning as the claim says, but then emits `PeerIdentificationCompleted`,
not `PeerIdentificationFailed`: `handleIdentifyResponse` never assigns the
`err` that the deferred event selection inspects. -/
theorem identifyConn_decode_failure_completes :
    identifyConn ⟨true, true, [200]⟩ =
      ⟨true, .completed, false, false, true, true, none⟩ ∧
    (identifyConn ⟨true, true, [200]⟩).event ≠ .failed ∧
    (identifyConn ⟨true, false, []⟩).event = .failed := by
  decide

/-! ## Lemmas: message builder and consumer -/

theorem decodeAddr_encodeAddr (a : Addr) : decodeAddr (encodeAddr a) = some a := by
  cases a <;> rfl

theorem encodeAddr_inj {a b : Addr} (h : encodeAddr a = encodeAddr b) :
    a = b := by
  have := congrArg decodeAddr h
  rw [decodeAddr_encodeAddr, decodeAddr_encodeAddr, Option.some_inj] at this
  exact this

/-- C7: an Identify message built over a protocol without signed peer
records carries exactly the host's advertised addresses in `ListenAddrs`,
except that a loopback address is omitted unless the connection's local or
remote multiaddr is itself over loopback. -/
theorem populateMessage_listen_loopback (h : HostView) (a : Addr) :
    encodeAddr a ∈ (populateMessage h false).listenAddrs ↔
      a ∈ h.hostAddrs ∧ (isIPLoopback a = true →
        (isIPLoopback h.localMaddr || isIPLoopback h.remoteMaddr) = true) := by
  show encodeAddr a ∈ ((h.hostAddrs.filter fun b =>
      (isIPLoopback h.localMaddr || isIPLoopback h.remoteMaddr) ||
        ! isIPLoopback b).map encodeAddr) ↔ _
  rw [List.mem_map]
  constructor
  · rintro ⟨b, hb, he⟩
    obtain rfl : b = a := encodeAddr_inj he
    rw [List.mem_filter] at hb
    refine ⟨hb.1, fun hl => ?_⟩
    have hcond := hb.2
    rw [hl] at hcond
    simpa using hcond
  · rintro ⟨ha, himp⟩
    refine ⟨a, List.mem_filter.2 ⟨ha, ?_⟩, rfl⟩
    by_cases hl : isIPLoopback a = true
    · rw [himp hl]
      exact Bool.true_or _
    · rw [Bool.not_eq_true] at hl
      rw [hl]
      simp

/-- C8: public-key reconciliation.  When the identity derived from the
received key differs from the remote peer and both are non-empty, the
mismatch is logged as an error and nothing is stored; when the identity
matches and no key is stored, the new key is added; when the stored key
equals the new one, nothing changes; and when a different stored key also
matches the peer identity, errors are logged but the stored key is never
overwritten. -/
theorem consumeReceivedPubKey_reconciliation
    (u : List Nat → Option PKey) (i : PKey → Option PeerId) (rp : PeerId)
    (stored : Option PKey) (bs : List Nat) (k : PKey) (np : PeerId)
    (hu : u bs = some k) (hi : i k = some np) :
    ((np ≠ rp → rp ≠ [] → np ≠ [] →
      consumeReceivedPubKey u i rp stored (some bs) = (stored, [.error])) ∧
    (np = rp → stored = none →
      consumeReceivedPubKey u i rp stored (some bs) = (some k, [])) ∧
    (np = rp → stored = some k →
      consumeReceivedPubKey u i rp stored (some bs) = (stored, [])) ∧
    (∀ k0, np = rp → stored = some k0 → k0 ≠ k →
      (consumeReceivedPubKey u i rp stored (some bs)).1 = some k0 ∧
      LogLevel.error ∈ (consumeReceivedPubKey u i rp stored (some bs)).2)) := by
  simp only [consumeReceivedPubKey, hu, hi]
  refine ⟨?_, ?_, ?_, ?_⟩
  · intro hne hrp _
    rw [if_neg hne, if_neg (fun hc : rp = [] ∧ _ => hrp hc.1)]
  · intro heq hst
    rw [if_pos heq, hst]
  · intro heq hst
    rw [if_pos heq, hst]
    simp
  · intro k0 heq hst hne
    rw [if_pos heq, hst]
    cases hk0 : i k0 with
    | none => simp [hne, hk0]
    | some cp =>
      by_cases hcp : cp = rp <;> simp [hne, hk0, hcp]

/-- C8 witness: the four reconciliation branches at concrete keys: a lying
peer ([7] ≠ [9]), a first key for an empty store, a matching stored key,
and a conflicting stored key that is kept. -/
theorem consumeReceivedPubKey_reconciliation_witness :
    consumeReceivedPubKey (fun _ => some 5) (fun _ => some [7]) [9]
      (some 3) (some [0]) = (some 3, [.error]) ∧
    consumeReceivedPubKey (fun _ => some 5) (fun _ => some [7]) [7]
      none (some [0]) = (some 5, []) ∧
    consumeReceivedPubKey (fun _ => some 5) (fun _ => some [7]) [7]
      (some 5) (some [0]) = (some 5, []) ∧
    ((consumeReceivedPubKey (fun _ => some 5) (fun _ => some [7]) [7]
      (some 3) (some [0])).1 = some 3 ∧
    LogLevel.error ∈ (consumeReceivedPubKey (fun _ => some 5)
      (fun _ => some [7]) [7] (some 3) (some [0])).2) := by
  refine ⟨?_, ?_, ?_, ?_⟩
  · exact (consumeReceivedPubKey_reconciliation (fun _ => some 5)
      (fun _ => some [7]) [9] (some 3) [0] 5 [7] rfl rfl).1
      (by decide) (by decide) (by decide)
  · exact (consumeReceivedPubKey_reconciliation (fun _ => some 5)
      (fun _ => some [7]) [7] none [0] 5 [7] rfl rfl).2.1 rfl rfl
  · exact (consumeReceivedPubKey_reconciliation (fun _ => some 5)
      (fun _ => some [7]) [7] (some 5) [0] 5 [7] rfl rfl).2.2.1 rfl rfl
  · exact (consumeReceivedPubKey_reconciliation (fun _ => some 5)
      (fun _ => some [7]) [7] (some 3) [0] 5 [7] rfl rfl).2.2.2 3 rfl rfl
      (by decide)

/-- C10: receiving no public key bytes leaves the peer store's key for the
remote peer exactly as it was, for every prior state: `consumeReceivedPubKey`
returns at its nil-check after one debug log, adding, removing and
modifying nothing. -/
theorem consumeReceivedPubKey_nil_frame (u : List Nat → Option PKey)
    (i : PKey → Option PeerId) (rp : PeerId) (stored : Option PKey) :
    consumeReceivedPubKey u i rp stored none = (stored, [.debug]) := rfl

theorem mem_fst_updateAddrs {b : AddrBook} {o n : Nat} {a : Addr} {t : Nat}
    (h : (a, t) ∈ updateAddrs b o n) : ∃ t', (a, t') ∈ b := by
  unfold updateAddrs at h
  rw [List.mem_map] at h
  obtain ⟨p, hp, he⟩ := h
  by_cases hc : p.2 = o
  · rw [if_pos hc, Prod.mk.injEq] at he
    exact ⟨p.2, by rw [← he.1, Prod.mk.eta]; exact hp⟩
  · rw [if_neg hc] at he
    rw [he] at hp
    exact ⟨t, hp⟩

theorem mem_fst_addAddr {b : AddrBook} {x : Addr} {ttl : Nat} {a : Addr}
    {t : Nat} (h : (a, t) ∈ addAddr b x ttl) :
    (∃ t', (a, t') ∈ b) ∨ a = x := by
  unfold addAddr at h
  split at h
  · rw [List.mem_map] at h
    obtain ⟨p, hp, he⟩ := h
    by_cases hc : p.1 = x
    · rw [if_pos hc, Prod.mk.injEq] at he
      exact Or.inr he.1.symm
    · rw [if_neg hc] at he
      rw [he] at hp
      exact Or.inl ⟨t, hp⟩
  · rw [List.mem_append, List.mem_singleton, Prod.mk.injEq] at h
    rcases h with h | h
    · exact Or.inl ⟨t, h⟩
    · exact Or.inr h.1

theorem mem_fst_addAddrs {b : AddrBook} {l : List Addr} {ttl : Nat}
    {a : Addr} {t : Nat} (h : (a, t) ∈ addAddrs b l ttl) :
    (∃ t', (a, t') ∈ b) ∨ a ∈ l := by
  induction l generalizing b with
  | nil => exact Or.inl ⟨t, h⟩
  | cons x xs ih =>
    rcases ih h with hb | hx
    · obtain ⟨t', ht'⟩ := hb
      rcases mem_fst_addAddr ht' with hb' | hax
      · exact Or.inl hb'
      · exact Or.inr (hax ▸ List.mem_cons_self ..)
    · exact Or.inr (List.mem_cons_of_mem _ hx)

theorem addrAlive_updateAddrs_iff (b : AddrBook) (a : Addr) :
    addrAlive (updateAddrs b connectedAddrTTL transientTTL) a ↔
      addrAlive b a := by
  have htr : 0 < transientTTL := by norm_num [transientTTL, oneSecond]
  have hco : 0 < connectedAddrTTL := by norm_num [connectedAddrTTL]
  constructor
  · rintro ⟨t, hmem, hpos⟩
    unfold updateAddrs at hmem
    rw [List.mem_map] at hmem
    obtain ⟨p, hp, he⟩ := hmem
    by_cases hc : p.2 = connectedAddrTTL
    · rw [if_pos hc, Prod.mk.injEq] at he
      exact ⟨p.2, by rw [← he.1, Prod.mk.eta]; exact hp, hc ▸ hco⟩
    · rw [if_neg hc] at he
      rw [he] at hp
      exact ⟨t, hp, hpos⟩
  · rintro ⟨t, hmem, hpos⟩
    by_cases hc : t = connectedAddrTTL
    · refine ⟨transientTTL, ?_, htr⟩
      unfold updateAddrs
      rw [List.mem_map]
      exact ⟨(a, t), hmem, by rw [if_pos hc]⟩
    · refine ⟨t, ?_, hpos⟩
      unfold updateAddrs
      rw [List.mem_map]
      exact ⟨(a, t), hmem, by rw [if_neg hc]⟩

theorem addrAlive_addAddr_of {b : AddrBook} {x : Addr} {ttl : Nat} {a : Addr}
    (h : addrAlive b a) : addrAlive (addAddr b x ttl) a := by
  obtain ⟨t, hmem, hpos⟩ := h
  unfold addAddr
  split
  · by_cases hax : a = x
    · refine ⟨max t ttl, ?_, lt_of_lt_of_le hpos (le_max_left ..)⟩
      rw [List.mem_map]
      exact ⟨(a, t), hmem, by rw [if_pos (show (a, t).1 = x from hax), hax]⟩
    · refine ⟨t, ?_, hpos⟩
      rw [List.mem_map]
      exact ⟨(a, t), hmem, by rw [if_neg (show ¬(a, t).1 = x from hax)]⟩
  · exact ⟨t, List.mem_append_left _ hmem, hpos⟩

theorem addrAlive_addAddrs_of {b : AddrBook} {l : List Addr} {ttl : Nat}
    {a : Addr} (h : addrAlive b a) : addrAlive (addAddrs b l ttl) a := by
  induction l generalizing b with
  | nil => exact h
  | cons x xs ih => exact ih (addrAlive_addAddr_of h)


/-- C4 (amended): `consumeMessage` never adds the connection's
`RemoteMultiaddr` — or any other address — to the peer store unless the
peer itself advertised it in the message: as a decodable `ListenAddrs`
entry when addresses are taken from there, or inside the signed peer
record when the negotiated protocol supports peer records, the message
carries a valid record and the peer store has a certified address book
(in which case `ListenAddrs` is ignored entirely). -/
theorem consumeMessage_adds_only_advertised
    (u : List Nat → Option PKey) (i : PKey → Option PeerId) (msg : IdMsg)
    (c : ConnView) (upr : Bool) (ps : PeerSlice) (a : Addr) (t : Nat)
    (hfresh : ∀ t', (a, t') ∉ ps.addrs)
    (hadded : (a, t) ∈ (consumeMessage u i msg c upr ps).1.addrs) :
    (∃ raw ∈ msg.listenAddrs, decodeAddr raw = some a) ∨
      (upr = true ∧ c.cabOk = true ∧
        ∃ recAddrs, msg.signedPeerRecord = some recAddrs ∧ a ∈ recAddrs) := by
  have hlisten : a ∈ parseListenAddrs msg →
      ∃ raw ∈ msg.listenAddrs, decodeAddr raw = some a := by
    intro h
    unfold parseListenAddrs at h
    exact List.mem_filterMap.1 h
  have hfresh' : ∀ t', (a, t') ∉
      updateAddrs ps.addrs connectedAddrTTL transientTTL := by
    intro t' hmem
    obtain ⟨t'', ht''⟩ := mem_fst_updateAddrs hmem
    exact hfresh t'' ht''
  unfold consumeMessage at hadded
  cases hcab : c.cabOk with
  | false =>
    rw [hcab] at hadded
    rcases mem_fst_addAddrs hadded with ⟨t', ht'⟩ | hl
    · exact absurd ht' (hfresh' t')
    · exact Or.inl (hlisten hl)
  | true =>
    rw [hcab] at hadded
    cases hupr : upr with
    | false =>
      rw [hupr] at hadded
      simp only [Bool.false_eq_true, if_false] at hadded
      rcases mem_fst_addAddrs hadded with ⟨t', ht'⟩ | hl
      · exact absurd ht' (hfresh' t')
      · exact Or.inl (hlisten hl)
    | true =>
      rw [hupr] at hadded
      simp only [if_true] at hadded
      cases hsr : msg.signedPeerRecord with
      | none =>
        rw [hsr] at hadded
        rcases mem_fst_addAddrs hadded with ⟨t', ht'⟩ | hl
        · exact absurd ht' (hfresh' t')
        · exact Or.inl (hlisten hl)
      | some recAddrs =>
        rw [hsr] at hadded
        rcases mem_fst_addAddrs hadded with ⟨t', ht'⟩ | hl
        · exact absurd ht' (hfresh' t')
        · exact Or.inr ⟨rfl, rfl, recAddrs, rfl, hl⟩

/-- C4 witness: an address advertised in `ListenAddrs` is added over the
legacy path, and the theorem traces it back to the advertisement. -/
theorem consumeMessage_adds_only_advertised_witness :
    (∃ raw ∈ ([[4, 9, 9, 9, 9, 80]] : List (List Nat)),
        decodeAddr raw = some (.ip4 9 9 9 9 80)) ∨
      (false = true ∧ true = true ∧
        ∃ recAddrs, (none : Option (List Addr)) = some recAddrs ∧
          Addr.ip4 9 9 9 9 80 ∈ recAddrs) :=
  consumeMessage_adds_only_advertised (fun _ => none) (fun _ => none)
    ⟨[], none, [[4, 9, 9, 9, 9, 80]], none, 0, 0, none⟩
    ⟨[1], .ip4 7 7 7 7 1, true, true⟩ false ⟨[], [], [], none⟩
    (.ip4 9 9 9 9 80) connectedAddrTTL (by simp) (by decide)

/-- C4 counterexample: over the peer-record protocol with a certified
address book, `consumeMessage` consumes the signed peer record and ignores
`ListenAddrs`; a record carrying exactly the connection's remote multiaddr
gets that address added to the peer store although `ListenAddrs` is empty,
so "unless that address is among the addresses the peer itself advertised
in the message's ListenAddrs" is violated as stated. -/
theorem consumeMessage_signed_record_remote_cex :
    (consumeMessage (fun _ => none) (fun _ => none)
        ⟨[], none, [], none, 0, 0, some [.ip4 8 8 8 8 4001]⟩
        ⟨[1], .ip4 8 8 8 8 4001, true, true⟩ true
        ⟨[], [], [], none⟩).1.addrs =
      [(.ip4 8 8 8 8 4001, connectedAddrTTL)] ∧
    (⟨[], none, [], none, 0, 0, some [.ip4 8 8 8 8 4001]⟩ : IdMsg).listenAddrs
      = [] := by
  decide

/-- C6: `consumeMessage` first demotes the peer's previously stored
addresses from `ConnectedAddrTTL` to `transientTTL` — exactly 10 seconds,
never zero — and only then adds the newly learned addresses; the demotion
preserves exactly the set of live addresses, so the peer store never
passes through a state with no addresses for the peer, and every
previously live address is still live afterwards. -/
theorem consumeMessage_demotes_then_adds (u : List Nat → Option PKey)
    (i : PKey → Option PeerId) (msg : IdMsg) (c : ConnView) (upr : Bool)
    (ps : PeerSlice) :
    transientTTL = 10 * oneSecond ∧ 0 < transientTTL ∧
    (consumeMessage u i msg c upr ps).1.addrs =
      addAddrs (updateAddrs ps.addrs connectedAddrTTL transientTTL)
        (consumedAddrs msg c upr)
        (if c.connected then connectedAddrTTL
          else recentlyConnectedAddrTTL) ∧
    (∀ a, addrAlive (updateAddrs ps.addrs connectedAddrTTL transientTTL) a ↔
      addrAlive ps.addrs a) ∧
    (∀ a, addrAlive ps.addrs a →
      addrAlive (consumeMessage u i msg c upr ps).1.addrs a) := by
  have hstruct : (consumeMessage u i msg c upr ps).1.addrs =
      addAddrs (updateAddrs ps.addrs connectedAddrTTL transientTTL)
        (consumedAddrs msg c upr)
        (if c.connected then connectedAddrTTL
          else recentlyConnectedAddrTTL) := by
    unfold consumeMessage consumedAddrs
    cases c.cabOk with
    | false => rfl
    | true =>
      cases (if upr then msg.signedPeerRecord else none) with
      | none => rfl
      | some recAddrs => rfl
  refine ⟨rfl, by norm_num [transientTTL, oneSecond], hstruct,
    fun a => addrAlive_updateAddrs_iff ps.addrs a, fun a ha => ?_⟩
  rw [hstruct]
  exact addrAlive_addAddrs_of ((addrAlive_updateAddrs_iff ps.addrs a).2 ha)


end Libp2pIdentify
